import Mathlib

/-!
# Verification of the OpenBR streaming/pipeline core

A shallow embedding, in Lean 4, of the pipeline-execution core of the
`biometrics-openbr` repository:

* the two `SharedBuffer` implementations (`SingleBuffer`, `DoubleBuffer`)
  of `src/openbr/openbr.h`;
* the multi-stage streaming executor (`StreamTransform::projectUpdate`,
  `ProcessingStage::run`, `FirstStage`, `LastStage`) of the same file;
* the composition text machinery of `src/sdk/openbr_plugin.cpp`
  (`Transform::make`, `File::init`, `Object::setProperty`);
* the `Independent` per-channel adapter and the `Downsample` training policy
  of `src/sdk/openbr_plugin.cpp`;
* the per-item exception recovery `_project` of `src/sdk/openbr_plugin.cpp`.

C++ concurrency is embedded as interleaving semantics: each mutex/lock
protected operation of the source becomes an atomic state transition, and a
run of the system is an arbitrary interleaving (a schedule) of those
transitions.  Blocking (`QWaitCondition::wait`) is embedded as an operation
being disabled until its wake-up condition holds.
-/

namespace OpenBR

/-! ## Buffers (src/openbr/openbr.h lines 420-589)

Each buffer sits between one producer stage and one consumer stage.  The
state components are exactly the fields of the C++ classes (the lock and the
wait condition have no state visible to the embedding; they make each
operation atomic, which the interleaving semantics below assumes). -/

namespace SB

/-- State of `SingleBuffer` (openbr.h lines 437-493): the pending-item list
`buffer` and the `no_input` flag. -/
structure State (α : Type) where
  buffer : List α
  no_input : Bool
  deriving Repr, DecidableEq

/-- `SingleBuffer::addItem` (lines 457-464): append under the mutex, wake one
waiting consumer.  It performs no wait of its own. -/
def addItem (s : State α) (x : α) : State α :=
  { s with buffer := s.buffer ++ [x] }

/-- `SingleBuffer::stoppedInput` (lines 442-448). -/
def stoppedInput (s : State α) : State α :=
  { s with no_input := true }

/-- `SingleBuffer::startInput` (lines 451-455). -/
def startInput (s : State α) : State α :=
  { s with no_input := false }

/-- `SingleBuffer::getItem` (lines 466-485) is enabled — returns without
blocking on `availableInput` — iff an item is pending or `no_input` is set. -/
def getReady (s : State α) : Bool :=
  !s.buffer.isEmpty || s.no_input

/-- `SingleBuffer::getItem` (lines 466-485), taken at an instant where
`getReady` holds: an empty buffer (then necessarily `no_input`) yields the
end marker `none`, otherwise the head item is removed and returned. -/
def getItem (s : State α) : Option α × State α :=
  match s.buffer with
  | [] => (none, s)
  | x :: rest => (some x, { s with buffer := rest })

end SB

namespace DB

/-- State of `DoubleBuffer` (openbr.h lines 500-589): the list currently
being appended to (`inputBuffer`), the list currently being drained
(`outputBuffer`) and the `no_input` flag. -/
structure State (α : Type) where
  inputBuffer : List α
  outputBuffer : List α
  no_input : Bool
  deriving Repr, DecidableEq

/-- `DoubleBuffer::addItem` (lines 525-530): append to the input list under a
read lock, wake one waiting consumer.  It performs no wait of its own. -/
def addItem (s : State α) (x : α) : State α :=
  { s with inputBuffer := s.inputBuffer ++ [x] }

/-- `DoubleBuffer::stoppedInput` (lines 509-515). -/
def stoppedInput (s : State α) : State α :=
  { s with no_input := true }

/-- `DoubleBuffer::startInput` (lines 518-522). -/
def startInput (s : State α) : State α :=
  { s with no_input := false }

/-- `DoubleBuffer::getItem` (lines 533-568) is enabled iff either internal
list is nonempty or `no_input` is set. -/
def getReady (s : State α) : Bool :=
  !s.outputBuffer.isEmpty || !s.inputBuffer.isEmpty || s.no_input

/-- `DoubleBuffer::getItem` (lines 533-568), taken at an instant where
`getReady` holds: drain the output list first; when it is empty and the
input list is also empty return the end marker (`no_input` necessarily
holds); otherwise swap the two lists and pop the head of the new output
list. -/
def getItem (s : State α) : Option α × State α :=
  match s.outputBuffer with
  | x :: rest => (some x, { s with outputBuffer := rest })
  | [] =>
    match s.inputBuffer with
    | [] => (none, s)
    | x :: rest => (some x, { s with inputBuffer := [], outputBuffer := rest })

end DB

/-! ## Producer / consumer interleavings

A buffer model packages the four operations; a refinement witness maps its
state to the abstract FIFO contents.  Both implementations are proved to
refine the same FIFO contract, which is what every claim about the streaming
executor relies on. -/

/-- The operations a `SharedBuffer` implementation provides. -/
structure BufferModel (σ : Type) (α : Type) where
  add : σ → α → σ
  stop : σ → σ
  ready : σ → Bool
  get : σ → Option α × σ

/-- The `SingleBuffer` operations as a `BufferModel`. -/
def sbModel (α : Type) : BufferModel (SB.State α) α :=
  ⟨SB.addItem, SB.stoppedInput, SB.getReady, SB.getItem⟩

/-- The `DoubleBuffer` operations as a `BufferModel`. -/
def dbModel (α : Type) : BufferModel (DB.State α) α :=
  ⟨DB.addItem, DB.stoppedInput, DB.getReady, DB.getItem⟩

/-- A refinement of a buffer implementation to the abstract FIFO channel:
`contents` lists the undelivered items oldest first, `finished` reads the
end-of-input flag. -/
structure FifoRefines {σ α : Type} (M : BufferModel σ α) where
  contents : σ → List α
  finished : σ → Bool
  add_contents : ∀ s x, contents (M.add s x) = contents s ++ [x]
  add_finished : ∀ s x, finished (M.add s x) = finished s
  stop_contents : ∀ s, contents (M.stop s) = contents s
  stop_finished : ∀ s, finished (M.stop s) = true
  ready_iff : ∀ s, M.ready s = true ↔ (contents s ≠ [] ∨ finished s = true)
  get_nil : ∀ s, contents s = [] → M.get s = (none, s)
  get_cons : ∀ s x l, contents s = x :: l →
    (M.get s).1 = some x ∧ contents (M.get s).2 = l ∧
      finished (M.get s).2 = finished s

/-- `SingleBuffer` refines the FIFO channel: its pending list is the abstract
contents. -/
def sbRefines (α : Type) : FifoRefines (sbModel α) where
  contents s := s.buffer
  finished s := s.no_input
  add_contents _ _ := rfl
  add_finished _ _ := rfl
  stop_contents _ := rfl
  stop_finished _ := rfl
  ready_iff s := by
    simp [sbModel, SB.getReady, List.isEmpty_iff]
  get_nil s h := by
    simp [sbModel, SB.getItem, h]
  get_cons s x l h := by
    simp [sbModel, SB.getItem, h]

/-- `DoubleBuffer` refines the FIFO channel: the abstract contents are the
output list followed by the input list. -/
def dbRefines (α : Type) : FifoRefines (dbModel α) where
  contents s := s.outputBuffer ++ s.inputBuffer
  finished s := s.no_input
  add_contents s x := by
    simp [dbModel, DB.addItem]
  add_finished _ _ := rfl
  stop_contents _ := rfl
  stop_finished _ := rfl
  ready_iff s := by
    show DB.getReady s = true ↔ _
    rcases hout : s.outputBuffer with _ | ⟨y, ys⟩ <;>
      rcases hin : s.inputBuffer with _ | ⟨z, zs⟩ <;>
        simp [DB.getReady, hout, hin]
  get_nil s h := by
    have h' : s.outputBuffer ++ s.inputBuffer = [] := h
    have h1 : s.outputBuffer = [] := (List.append_eq_nil.mp h').1
    have h2 : s.inputBuffer = [] := (List.append_eq_nil.mp h').2
    show DB.getItem s = (none, s)
    simp [DB.getItem, h1, h2]
  get_cons s x l h := by
    have h' : s.outputBuffer ++ s.inputBuffer = x :: l := h
    rcases hout : s.outputBuffer with _ | ⟨y, ys⟩
    · rcases hin : s.inputBuffer with _ | ⟨z, zs⟩
      · rw [hout, hin] at h'; simp at h'
      · rw [hout, hin] at h'
        simp only [List.nil_append, List.cons.injEq] at h'
        refine ⟨?_, ?_, ?_⟩ <;>
          simp [dbModel, DB.getItem, hout, hin, h'.1, h'.2]
    · rw [hout] at h'
      simp only [List.cons_append, List.cons.injEq] at h'
      refine ⟨?_, ?_, ?_⟩ <;>
        simp [dbModel, DB.getItem, hout, h'.1, h'.2]

/-! ### One producer, one consumer

The producer thread of a stage performs `addItem x₁ … addItem x_N` followed
by `stoppedInput` (in `StreamTransform::projectUpdate` the orchestrating
thread calls `stoppedInput` on the buffer after the producing stage has
stopped; either way every `addItem` precedes the `stoppedInput`).  The
consumer thread repeatedly calls `getItem`.  A schedule interleaves the two
threads; a consumer step taken while `getItem` would block (`ready` false)
leaves the state unchanged — the consumer is still waiting. -/

/-- One pending producer operation. -/
inductive ProdOp (α : Type) where
  | push (x : α)
  | stop
  deriving Repr, DecidableEq

/-- A configuration of the producer/consumer system: the producer's remaining
program, the buffer state, and the values the consumer has received so far
(`none` is the end marker NULL). -/
structure PCRun (σ α : Type) where
  prog : List (ProdOp α)
  st : σ
  recv : List (Option α)

/-- The producer executes its next operation. -/
def stepProd {σ α : Type} (M : BufferModel σ α) (r : PCRun σ α) : PCRun σ α :=
  match r.prog with
  | [] => r
  | ProdOp.push x :: rest => { r with prog := rest, st := M.add r.st x }
  | ProdOp.stop :: rest => { r with prog := rest, st := M.stop r.st }

/-- The consumer calls `getItem` if it would not block, else keeps waiting. -/
def stepCons {σ α : Type} (M : BufferModel σ α) (r : PCRun σ α) : PCRun σ α :=
  if M.ready r.st then
    { r with st := (M.get r.st).2, recv := r.recv ++ [(M.get r.st).1] }
  else r

/-- Run a schedule: `true` schedules the producer, `false` the consumer. -/
def runSched {σ α : Type} (M : BufferModel σ α) :
    List Bool → PCRun σ α → PCRun σ α
  | [], r => r
  | true :: rest, r => runSched M rest (stepProd M r)
  | false :: rest, r => runSched M rest (stepCons M r)

/-- The producer program of the buffer contract: push the N items, then
signal end of input. -/
def prodProg (xs : List α) : List (ProdOp α) :=
  xs.map ProdOp.push ++ [ProdOp.stop]

/-- The invariant tying a producer/consumer configuration to the abstract
FIFO behaviour: `p` producer operations have executed (so `min p N` items
are pushed), `d` of them are delivered, the buffer holds the rest, the
consumer has received the delivered items in push order followed by `e`
end markers, and an end marker has been received only after everything was
pushed and delivered. -/
def PCInv {σ α : Type} {M : BufferModel σ α} (F : FifoRefines M)
    (xs : List α) (r : PCRun σ α) : Prop :=
  ∃ p d e : ℕ,
    p ≤ xs.length + 1 ∧
    r.prog = (prodProg xs).drop p ∧
    d ≤ min p xs.length ∧
    F.contents r.st = (xs.take (min p xs.length)).drop d ∧
    (F.finished r.st = true ↔ p = xs.length + 1) ∧
    r.recv = (xs.take d).map some ++ List.replicate e none ∧
    (0 < e → d = xs.length ∧ p = xs.length + 1)

theorem pcInv_stepProd {σ α : Type} {M : BufferModel σ α} (F : FifoRefines M)
    (xs : List α) (r : PCRun σ α) (h : PCInv F xs r) :
    PCInv F xs (stepProd M r) := by
  obtain ⟨p, d, e, hp, hprog, hd, hcont, hfin, hrecv, hend⟩ := h
  rcases hop : r.prog with _ | ⟨op, rest⟩
  · exact ⟨p, d, e, hp, by simp [stepProd, hop, hprog ▸ hop],
      hd, by simp [stepProd, hop, hcont], by simp [stepProd, hop, hfin],
      by simp [stepProd, hop, hrecv], hend⟩
  · have hplt : p < xs.length + 1 := by
      by_contra hcon
      have hpe : p = xs.length + 1 := le_antisymm hp (not_lt.mp hcon)
      rw [hprog, hpe, List.drop_eq_nil_of_le (by simp [prodProg])] at hop
      exact absurd hop (by simp)
    -- identify the op at position p of the producer program
    have hop_eq : (prodProg xs).get? p = some op := by
      rw [hprog] at hop
      have h0 := List.get?_drop (prodProg xs) p 0
      rw [hop] at h0
      simpa using h0.symm
    have hprog' : stepProd M r = { r with prog := rest, st :=
        match op with
        | ProdOp.push x => M.add r.st x
        | ProdOp.stop => M.stop r.st } := by
      cases op <;> simp [stepProd, hop]
    rcases Nat.lt_or_ge p xs.length with hplen | hplen
    · -- op = push xs[p]
      have hx : xs.get? p = some (xs.get ⟨p, hplen⟩) := List.get?_eq_get hplen
      have hp_eq : (prodProg xs).get? p = some (ProdOp.push (xs.get ⟨p, hplen⟩)) := by
        unfold prodProg
        rw [List.get?_append (by simpa using hplen)]
        simp [hx]
      rw [hop_eq] at hp_eq
      injection hp_eq with hopx
      subst hopx
      refine ⟨p + 1, d, e, hplt, ?_, ?_, ?_, ?_, ?_, ?_⟩
      · rw [hprog']
        show rest = List.drop (p + 1) (prodProg xs)
        have := congrArg (List.drop 1) hprog.symm
        rw [hop] at this
        simpa [List.drop_drop, Nat.add_comm] using this.symm
      · exact le_trans hd (by omega)
      · rw [hprog']
        show F.contents (M.add r.st _) = _
        rw [F.add_contents, hcont]
        have h1 : min (p + 1) xs.length = min p xs.length + 1 := by omega
        rw [h1, List.take_succ]
        have hd' : d ≤ (xs.take (min p xs.length)).length := by
          simpa [List.length_take] using hd
        rw [List.drop_append_of_le_length hd']
        have hmin : min p xs.length = p := by omega
        simp [hmin, List.getElem?_eq_getElem hplen]
      · rw [hprog']
        show F.finished (M.add r.st _) = true ↔ _
        rw [F.add_finished]
        constructor
        · intro hf; exact absurd (hfin.mp hf) (by omega)
        · omega
      · rw [hprog']; exact hrecv
      · intro he
        rcases hend he with ⟨h1, h2⟩
        omega
    · -- op = stop, p = xs.length
      have hpeq : p = xs.length := by omega
      have hp_eq : (prodProg xs).get? p = some ProdOp.stop := by
        unfold prodProg
        rw [hpeq, List.get?_append_right (by simp)]
        simp
      rw [hop_eq] at hp_eq
      injection hp_eq with hopx
      subst hopx
      refine ⟨p + 1, d, e, by omega, ?_, by omega, ?_, ?_, ?_, ?_⟩
      · rw [hprog']
        show rest = List.drop (p + 1) (prodProg xs)
        have := congrArg (List.drop 1) hprog.symm
        rw [hop] at this
        simpa [List.drop_drop, Nat.add_comm] using this.symm
      · rw [hprog']
        show F.contents (M.stop r.st) = _
        rw [F.stop_contents, hcont]
        congr 2
        omega
      · rw [hprog']
        show F.finished (M.stop r.st) = true ↔ _
        rw [F.stop_finished]
        simp
        omega
      · rw [hprog']; exact hrecv
      · intro he
        rcases hend he with ⟨h1, h2⟩
        omega

theorem pcInv_stepCons {σ α : Type} {M : BufferModel σ α} (F : FifoRefines M)
    (xs : List α) (r : PCRun σ α) (h : PCInv F xs r) :
    PCInv F xs (stepCons M r) := by
  obtain ⟨p, d, e, hp, hprog, hd, hcont, hfin, hrecv, hend⟩ := h
  by_cases hready : M.ready r.st
  · rcases hbuf : F.contents r.st with _ | ⟨x, l⟩
    · -- empty buffer: getItem returns the end marker
      have hfin' : F.finished r.st = true := by
        rcases (F.ready_iff r.st).mp hready with hne | hf
        · exact absurd hbuf hne
        · exact hf
      have hpN : p = xs.length + 1 := hfin.mp hfin'
      have hdN : d = xs.length := by
        have hc : List.drop d (List.take (min p xs.length) xs) = [] :=
          hcont.symm.trans hbuf
        have hlen := congrArg List.length hc
        simp only [List.length_drop, List.length_take, List.length_nil] at hlen
        omega
      refine ⟨p, d, e + 1, hp, ?_, hd, ?_, ?_, ?_, ?_⟩
      · simpa [stepCons, hready, F.get_nil _ hbuf] using hprog
      · simpa [stepCons, hready, F.get_nil _ hbuf] using hcont
      · simpa [stepCons, hready, F.get_nil _ hbuf] using hfin
      · simp [stepCons, hready, F.get_nil _ hbuf, hrecv, List.replicate_succ']
      · intro _; exact ⟨hdN, hpN⟩
    · -- nonempty buffer: getItem pops the head, which is xs[d]
      obtain ⟨hfst, hcont', hfin''⟩ := F.get_cons r.st x l hbuf
      have hdlt : d < min p xs.length := by
        by_contra hcon
        have hde : d = min p xs.length := by omega
        have hc : x :: l = List.drop d (List.take (min p xs.length) xs) :=
          hbuf.symm.trans hcont
        rw [hde, List.drop_eq_nil_of_le (by simp [List.length_take])] at hc
        exact absurd hc (by simp)
      have hx : x = xs.get ⟨d, by omega⟩ := by
        have h1 : ((xs.take (min p xs.length)).drop d).get? 0 = some x := by
          rw [← hcont, hbuf]; rfl
        rw [List.get?_drop] at h1
        have h2 : xs.get? (d + 0) = some x := by
          rw [← h1]
          exact (List.get?_take (by omega)).symm
        simp only [Nat.add_zero] at h2
        rw [List.get?_eq_get (by omega : d < xs.length)] at h2
        injection h2 with h3
        exact h3.symm
      have he0 : e = 0 := by
        by_contra hcon
        have := (hend (by omega)).1
        omega
      refine ⟨p, d + 1, 0, hp, ?_, by omega, ?_, ?_, ?_, ?_⟩
      · simpa [stepCons, hready] using hprog
      · have : l = (xs.take (min p xs.length)).drop (d + 1) := by
          have := hcont
          rw [hbuf] at this
          have h4 := congrArg (List.drop 1) this
          simpa using h4
        simpa [stepCons, hready, hcont'] using this
      · simpa [stepCons, hready, hfin''] using hfin
      · simp only [stepCons, hready, if_true, hrecv, he0, List.replicate_zero,
          List.append_nil]
        rw [hfst]
        have hdlen : d < xs.length := by omega
        have htk : xs.take (d + 1) = xs.take d ++ [xs.get ⟨d, hdlen⟩] := by
          rw [List.take_succ, List.getElem?_eq_getElem hdlen]
          simp
        rw [htk, List.map_append, hx]
        simp
      · intro hcon; omega
  · exact ⟨p, d, e, hp, by simpa [stepCons, hready] using hprog, hd,
      by simpa [stepCons, hready] using hcont,
      by simpa [stepCons, hready] using hfin,
      by simpa [stepCons, hready] using hrecv, hend⟩

theorem pcInv_runSched {σ α : Type} {M : BufferModel σ α} (F : FifoRefines M)
    (xs : List α) (sched : List Bool) (r : PCRun σ α) (h : PCInv F xs r) :
    PCInv F xs (runSched M sched r) := by
  induction sched generalizing r with
  | nil => exact h
  | cons b rest ih =>
    cases b
    · exact ih _ (pcInv_stepCons F xs r h)
    · exact ih _ (pcInv_stepProd F xs r h)

/-- The FIFO delivery contract, extracted from the invariant: under any
schedule the consumer has received a prefix of the pushed items in push
order, followed by end markers only; an end marker appears only once all N
items were pushed, the producer signalled the end, and all N items were
delivered. -/
theorem fifo_delivery {σ α : Type} {M : BufferModel σ α} (F : FifoRefines M)
    (s₀ : σ) (h₀c : F.contents s₀ = []) (h₀f : F.finished s₀ = false)
    (xs : List α) (sched : List Bool) :
    ∃ d e : ℕ, d ≤ xs.length ∧
      (runSched M sched ⟨prodProg xs, s₀, []⟩).recv =
        (xs.take d).map some ++ List.replicate e none ∧
      (0 < e → d = xs.length ∧
        (runSched M sched ⟨prodProg xs, s₀, []⟩).prog = []) := by
  have hinit : PCInv F xs ⟨prodProg xs, s₀, []⟩ := by
    refine ⟨0, 0, 0, by omega, by simp, by omega, by simpa using h₀c,
      by simp [h₀f], by simp, by omega⟩
  obtain ⟨p, d, e, hp, hprog, hd, hcont, hfin, hrecv, hend⟩ :=
    pcInv_runSched F xs sched _ hinit
  refine ⟨d, e, by omega, hrecv, ?_⟩
  intro he
  obtain ⟨h1, h2⟩ := hend he
  refine ⟨h1, ?_⟩
  rw [hprog, h2]
  simp [prodProg]

/-- **C2.** For each Buffer implementation (`SingleBuffer` and `DoubleBuffer`)
used with one producer thread and one consumer thread: if the producer calls
`addItem` on the N items `xs` and then `stoppedInput`, then under every
interleaving the consumer's successive `getItem` calls return exactly those N
items, each exactly once, in push order; `getItem` returns the end marker
(NULL, embedded as `none`) only once all N items are consumed and never while
an unconsumed item remains; once drained and finished `getItem` does return
the end marker; and `addItem` is enabled in every state — it appends in a
single step without waiting for the consumer. -/
theorem claim_C2_buffer_contract (α : Type) (xs : List α) (sched : List Bool) :
    (∃ d e : ℕ, d ≤ xs.length ∧
      (runSched (sbModel α) sched ⟨prodProg xs, ⟨[], false⟩, []⟩).recv =
        (xs.take d).map some ++ List.replicate e none ∧
      (0 < e → d = xs.length ∧
        (runSched (sbModel α) sched ⟨prodProg xs, ⟨[], false⟩, []⟩).prog = [])) ∧
    (∃ d e : ℕ, d ≤ xs.length ∧
      (runSched (dbModel α) sched ⟨prodProg xs, ⟨[], [], false⟩, []⟩).recv =
        (xs.take d).map some ++ List.replicate e none ∧
      (0 < e → d = xs.length ∧
        (runSched (dbModel α) sched ⟨prodProg xs, ⟨[], [], false⟩, []⟩).prog = [])) ∧
    (∀ s : SB.State α, s.buffer = [] → SB.getItem s = (none, s)) ∧
    (∀ s : DB.State α, s.outputBuffer = [] → s.inputBuffer = [] →
      DB.getItem s = (none, s)) ∧
    (∀ (s : SB.State α) (x : α), SB.addItem s x =
      { s with buffer := s.buffer ++ [x] }) ∧
    (∀ (s : DB.State α) (x : α), DB.addItem s x =
      { s with inputBuffer := s.inputBuffer ++ [x] }) := by
  refine ⟨?_, ?_, ?_, ?_, fun _ _ => rfl, fun _ _ => rfl⟩
  · exact fifo_delivery (sbRefines α) ⟨[], false⟩ rfl rfl xs sched
  · exact fifo_delivery (dbRefines α) ⟨[], [], false⟩ rfl rfl xs sched
  · intro s hs
    simp [SB.getItem, hs]
  · intro s ho hi
    simp [DB.getItem, ho, hi]

/-! ## The streaming executor (src/openbr/openbr.h lines 795-1063)

`StreamTransform::init` wires `FirstStage` (run by the calling thread),
one `ProcessingStage` per transform, and `LastStage`, connected by
`transforms.size() + 1` shared buffers.  Each `ProcessingStage::run` loops
`getItem` / `projectUpdate` / `addItem` and `LastStage::run` loops `getItem`
/ append-to-output.  The buffers were proved above (`sbRefines`,
`dbRefines`) to behave as FIFO queues under interleaving, so a pipeline
configuration is embedded as: the frames the source has not yet emitted, the
FIFO contents of each buffer, and the collected output.  A scheduler step
executes one loop iteration of one stage. -/

namespace Stream

/-- `FrameData` (openbr.h lines 413-418): a sequence number and a template
list, the template type left abstract. -/
structure Frame (α : Type) where
  seq : Int
  data : List α
  deriving Repr, DecidableEq

/-- Application of a chain of per-stage batch transforms, first stage
first. -/
def apps (ts : List (List α → List α)) (l : List α) : List α :=
  ts.foldl (fun acc t => t acc) l

theorem apps_nil (l : List α) : apps ([] : List (List α → List α)) l = l := rfl

theorem apps_cons (t : List α → List α) (ts : List (List α → List α))
    (l : List α) : apps (t :: ts) l = apps ts (t l) := rfl

/-- A configuration of a streaming run: `src` holds the frames the data
source will still deliver, `queues` the FIFO contents of the
`transforms.size() + 1` shared buffers (index 0 is the read stage's output
buffer), `out` the `LastStage` accumulator `collectedOutput`. -/
structure Config (α : Type) where
  src : List (Frame α)
  queues : List (List (Frame α))
  out : List α
  deriving Repr, DecidableEq

/-- One loop iteration of one stage of the streaming executor, for the stage
transforms `ts`:

* `source` — `FirstStage::run` (lines 857-874) pulls the next frame from the
  data source and pushes it onto buffer 0;
* `stage` — `ProcessingStage::run` (lines 836-853) for the stage reading
  buffer `pre.length`: pop a frame, apply the stage transform to its data in
  place (the sequence number is untouched), push it onto the next buffer;
* `collect` — `LastStage::run` (lines 876-903): pop a frame from the last
  buffer and append its template list to the accumulator. -/
inductive Step (ts : List (List α → List α)) : Config α → Config α → Prop
  | source (f : Frame α) (src' : List (Frame α)) (q0 : List (Frame α))
      (qs : List (List (Frame α))) (out : List α) :
      Step ts ⟨f :: src', q0 :: qs, out⟩ ⟨src', (q0 ++ [f]) :: qs, out⟩
  | stage (pre : List (List (Frame α))) (f : Frame α)
      (q1 q2 : List (Frame α)) (post : List (List (Frame α)))
      (src : List (Frame α)) (out : List α) (t : List α → List α)
      (ht : ts.get? pre.length = some t) :
      Step ts ⟨src, pre ++ (f :: q1) :: q2 :: post, out⟩
              ⟨src, pre ++ q1 :: (q2 ++ [⟨f.seq, t f.data⟩]) :: post, out⟩
  | collect (pre : List (List (Frame α))) (f : Frame α) (q : List (Frame α))
      (src : List (Frame α)) (out : List α)
      (hlast : pre.length = ts.length) :
      Step ts ⟨src, pre ++ [f :: q], out⟩ ⟨src, pre ++ [q], out ++ f.data⟩

/-- The output still owed by the frames sitting in the buffers, in the order
they will reach the accumulator: frames in later buffers first, each frame's
data transformed by the stages it has not yet passed (the buffer at index
`i` feeds stage `i + 1`, so its frames still undergo `ts.drop i`). -/
def pending : List (List α → List α) → List (List (Frame α)) → List α
  | _, [] => []
  | ts, q :: qs =>
    pending ts.tail qs ++ (q.map (fun f => apps ts f.data)).join

/-- The output still owed by the unread source frames. -/
def srcPending (ts : List (List α → List α)) (src : List (Frame α)) : List α :=
  (src.map (fun f => apps ts f.data)).join

/-- A `source` step moves one frame from the source into buffer 0. -/
theorem pending_source (ts : List (List α → List α)) (f : Frame α)
    (q0 : List (Frame α)) (qs : List (List (Frame α))) :
    pending ts ((q0 ++ [f]) :: qs) = pending ts (q0 :: qs) ++ apps ts f.data := by
  simp [pending, List.append_assoc]

/-- A `stage` step leaves the total pending output unchanged: the frame
moves one buffer forward and one more stage transform is absorbed into its
data. -/
theorem pending_stage (pre : List (List (Frame α))) (f : Frame α)
    (q1 q2 : List (Frame α)) (post : List (List (Frame α)))
    (ts : List (List α → List α)) (t : List α → List α)
    (ht : ts.get? pre.length = some t) :
    pending ts (pre ++ q1 :: (q2 ++ [⟨f.seq, t f.data⟩]) :: post) =
      pending ts (pre ++ (f :: q1) :: q2 :: post) := by
  induction pre generalizing ts with
  | nil =>
    rcases ts with _ | ⟨t0, ts'⟩
    · simp at ht
    · have h0 : t0 = t := by simpa using ht
      subst h0
      simp [pending, apps_cons, List.append_assoc]
  | cons q pre' ih =>
    have ht' : ts.tail.get? pre'.length = some t := by
      rcases ts with _ | ⟨t0, ts'⟩
      · simp at ht
      · simpa using ht
    simp only [List.cons_append, pending, List.append_eq]
    rw [ih ts.tail ht']

/-- A `collect` step removes the front frame of the last buffer, which owes
exactly its raw data (all stages already applied). -/
theorem pending_collect (pre : List (List (Frame α))) (f : Frame α)
    (q : List (Frame α)) (ts : List (List α → List α))
    (hlast : pre.length = ts.length) :
    pending ts (pre ++ [f :: q]) = f.data ++ pending ts (pre ++ [q]) := by
  induction pre generalizing ts with
  | nil =>
    have hts : ts = [] := by
      rcases ts with _ | ⟨t0, ts'⟩
      · rfl
      · simp at hlast
    subst hts
    simp [pending, apps_nil]
  | cons q0 pre' ih =>
    have hlast' : pre'.length = ts.tail.length := by
      rcases ts with _ | ⟨t0, ts'⟩
      · simp at hlast
      · simpa using hlast
    simp only [List.cons_append, pending, List.append_eq]
    rw [ih ts.tail hlast', List.append_assoc]

/-- All buffers empty — nothing pending. -/
theorem pending_nil_of_empty (ts : List (List α → List α))
    (qs : List (List (Frame α))) (h : ∀ q ∈ qs, q = []) :
    pending ts qs = [] := by
  induction qs generalizing ts with
  | nil => rfl
  | cons q qs' ih =>
    have hq : q = [] := h q (by simp)
    simp [pending, hq, ih ts.tail (fun q hm => h q (by simp [hm]))]

/-- The run invariant: output already collected, plus output owed by
buffered frames, plus output owed by unread source frames, is the whole
run's output. -/
def Inv (ts : List (List α → List α)) (frames : List (Frame α))
    (c : Config α) : Prop :=
  c.out ++ pending ts c.queues ++ srcPending ts c.src =
    srcPending ts frames

theorem inv_step (ts : List (List α → List α)) (frames : List (Frame α))
    (c c' : Config α) (hstep : Step ts c c') (hinv : Inv ts frames c) :
    Inv ts frames c' := by
  cases hstep with
  | source f src' q0 qs out =>
    unfold Inv at hinv ⊢
    simp only at hinv ⊢
    rw [pending_source]
    have hsrc : srcPending ts (f :: src') =
        apps ts f.data ++ srcPending ts src' := by
      simp [srcPending]
    rw [hsrc] at hinv
    rw [← hinv]
    simp [List.append_assoc]
  | stage pre f q1 q2 post src out t ht =>
    unfold Inv at hinv ⊢
    simp only at hinv ⊢
    rw [pending_stage pre f q1 q2 post ts t ht]
    exact hinv
  | collect pre f q src out hlast =>
    unfold Inv at hinv ⊢
    simp only at hinv ⊢
    rw [pending_collect pre f q ts hlast] at hinv
    rw [← hinv]
    simp [List.append_assoc]

theorem inv_run (ts : List (List α → List α)) (frames : List (Frame α))
    (c c' : Config α) (hrun : Relation.ReflTransGen (Step ts) c c')
    (hinv : Inv ts frames c) : Inv ts frames c' := by
  induction hrun with
  | refl => exact hinv
  | tail _ hstep ih => exact inv_step ts frames _ _ hstep ih

/-- The source frames of a run over the in-memory data source
(`TemplateDataSource`, openbr.h lines 692-734): the k-th delivered frame
carries sequence number k (`next_sequence` starts at 0 and increments once
per frame) and the k-th input, so frames are emitted in strictly increasing
sequence-number order 0, 1, …, K-1. -/
def mkFrames (datas : List (List α)) : List (Frame α) :=
  datas.enum.map (fun p => ⟨(p.1 : Int), p.2⟩)

/-- The initial configuration of `projectUpdate`: no output collected,
all `transforms.size() + 1` buffers empty, every frame still to be read. -/
def init (ts : List (List α → List α)) (datas : List (List α)) : Config α :=
  ⟨mkFrames datas, List.replicate (ts.length + 1) [], []⟩

theorem mkFrames_seq (datas : List (List α)) :
    (mkFrames datas).map Frame.seq =
      (List.range datas.length).map Int.ofNat := by
  unfold mkFrames
  rw [List.map_map]
  have h1 : (List.range datas.length).map Int.ofNat =
      (datas.enum.map Prod.fst).map Int.ofNat := by
    rw [List.enum_map_fst]
  rw [h1, List.map_map]
  rfl

end Stream

/-- **C1.** For every streaming run (`StreamTransform::projectUpdate` over a
data source that emits the frames `mkFrames datas` before signalling end),
and any interleaving of the stage workers that drains the pipeline (source
exhausted, all buffers empty), the output `TemplateList` is exactly the
concatenation of the K frames' template lists — each transformed by the full
stage chain — in source order, which is strictly increasing sequence-number
order 0..K-1: no frame lost, none duplicated, none reordered, for any number
of intermediate stages `ts` and for either Buffer implementation (both were
proved to refine the FIFO queues used by `Stream.Step`). -/
theorem claim_C1_stream_order (α : Type) (ts : List (List α → List α))
    (datas : List (List α)) (c : Stream.Config α)
    (hrun : Relation.ReflTransGen (Stream.Step ts) (Stream.init ts datas) c)
    (hsrc : c.src = []) (hq : ∀ q ∈ c.queues, q = []) :
    c.out = (datas.map (Stream.apps ts)).join ∧
    (Stream.mkFrames datas).map Stream.Frame.seq =
      (List.range datas.length).map Int.ofNat := by
  constructor
  · have hinit : Stream.Inv ts (Stream.mkFrames datas) (Stream.init ts datas) := by
      unfold Stream.Inv Stream.init
      simp only
      rw [Stream.pending_nil_of_empty ts _ (fun q hm => by
        simpa using (List.eq_of_mem_replicate hm))]
      simp
    have hinv := Stream.inv_run ts (Stream.mkFrames datas) _ c hrun hinit
    unfold Stream.Inv at hinv
    rw [hsrc, Stream.pending_nil_of_empty ts c.queues hq] at hinv
    simp only [Stream.srcPending, List.map_nil, List.join_nil,
      List.append_nil] at hinv
    rw [hinv]
    unfold Stream.mkFrames
    rw [List.map_map]
    have h2 : (datas.enum.map ((fun f : Stream.Frame α => Stream.apps ts f.data) ∘
        (fun p : ℕ × List α => ⟨(p.1 : Int), p.2⟩))) =
        (datas.enum.map Prod.snd).map (Stream.apps ts) := by
      rw [List.map_map]
      rfl
    rw [h2, List.enum_map_snd]
  · exact Stream.mkFrames_seq datas

/-- Witness for C1: a two-frame run through one stage (adding 10 to every
template), stepped source → stage → collect → source → stage → collect,
delivers `[11, 12]` — both frames, in sequence order. -/
theorem claim_C1_stream_order_witness :
    (⟨[], [[], []], [11, 12]⟩ : Stream.Config Nat).out =
      (([[1], [2]] : List (List Nat)).map
        (Stream.apps [fun l => l.map (· + 10)])).join ∧
    (Stream.mkFrames ([[1], [2]] : List (List Nat))).map Stream.Frame.seq =
      (List.range ([[1], [2]] : List (List Nat)).length).map Int.ofNat := by
  refine claim_C1_stream_order Nat [fun l => l.map (· + 10)] [[1], [2]]
    ⟨[], [[], []], [11, 12]⟩ ?_ rfl ?_
  · exact Relation.ReflTransGen.head
      (Stream.Step.source ⟨0, [1]⟩ [⟨1, [2]⟩] [] [[]] [])
      (Relation.ReflTransGen.head
        (Stream.Step.stage [] ⟨0, [1]⟩ [] [] [] [⟨1, [2]⟩] [] _ rfl)
        (Relation.ReflTransGen.head
          (Stream.Step.collect [[]] ⟨0, [11]⟩ [] [⟨1, [2]⟩] [] rfl)
          (Relation.ReflTransGen.head
            (Stream.Step.source ⟨1, [2]⟩ [] [] [[]] [11])
            (Relation.ReflTransGen.head
              (Stream.Step.stage [] ⟨1, [2]⟩ [] [] [] [] [11] _ rfl)
              (Relation.ReflTransGen.head
                (Stream.Step.collect [[]] ⟨1, [12]⟩ [] [] [11] rfl)
                Relation.ReflTransGen.refl)))))
  · intro q hq
    fin_cases hq <;> rfl

/-! ## Control flow of `StreamTransform::projectUpdate`
(openbr.h lines 936-983)

The calls `projectUpdate` makes, in order, are recorded as an event list;
the fatal `qFatal` on a non-singleton input is an `Except.error` (the
process aborts, so nothing after it happens and no event is emitted). -/

namespace Ctrl

/-- The observable actions of `projectUpdate`, in program order. -/
inductive SEvent where
  | warnOpenFailed
  | startInputBuf (i : Nat)
  | markStartStage (i : Nat)
  | poolStartStage (i : Nat)
  | markStartCollector
  | poolStartCollector
  | runReadStage
  | stopInputBuf (i : Nat)
  | waitStopStage (i : Nat)
  | waitStopCollector
  deriving Repr, DecidableEq

/-- `StreamTransform::projectUpdate(const TemplateList&, TemplateList&)`
(openbr.h lines 936-983) over `n` intermediate transforms (so `n + 1`
shared buffers, from `StreamTransform::init`, lines 992-1029).  `openOk` is
the result of `DataSourceManager::open` on the single input template;
`collected` stands for `collectionStage.getOutput()` on success.  Returns
the final value of `dst` and the emitted events, or the `qFatal` message. -/
def projectUpdate (n : Nat) (openOk : Bool) (collected : List α)
    (src : List α) : Except String (List α × List SEvent) :=
  if src.length ≠ 1 then
    Except.error "Expected single template input to stream"
  else if !openOk then
    -- dst = src happened before the open; the early return leaves it there
    Except.ok (src, [SEvent.warnOpenFailed])
  else
    Except.ok (collected,
      ((List.range (n + 1)).map SEvent.startInputBuf)
      ++ ((List.range n).map
          (fun i => [SEvent.markStartStage i, SEvent.poolStartStage i])).join
      ++ [SEvent.markStartCollector, SEvent.poolStartCollector,
          SEvent.runReadStage]
      ++ ((List.range n).map
          (fun i => [SEvent.stopInputBuf i, SEvent.waitStopStage i])).join
      ++ [SEvent.stopInputBuf n, SEvent.waitStopCollector])

/-- The drain wave as the caller performs it: buffer `i` is marked finished
and stage `i` is awaited before buffer `i+1` is touched — one stage at a
time, in pipeline order. -/
def drainSeq : Nat → Nat → List SEvent
  | _, 0 => []
  | i, Nat.succ m =>
    SEvent.stopInputBuf i :: SEvent.waitStopStage i :: drainSeq (i + 1) m

theorem drainSeq_eq_join (n : Nat) : ∀ i : Nat,
    ((List.range n).map
      (fun k => [SEvent.stopInputBuf (i + k), SEvent.waitStopStage (i + k)])).join =
      drainSeq i n := by
  induction n with
  | zero => intro i; rfl
  | succ m ih =>
    intro i
    rw [List.range_succ_eq_map, List.map_cons, List.map_map]
    have h2 : ((fun k => [SEvent.stopInputBuf (i + k),
        SEvent.waitStopStage (i + k)]) ∘ Nat.succ) =
        (fun k => [SEvent.stopInputBuf (i + 1 + k),
          SEvent.waitStopStage (i + 1 + k)]) := by
      funext k
      have hik : i + Nat.succ k = i + 1 + k := by omega
      simp only [Function.comp_apply, hik]
    rw [h2]
    have h3 : (([SEvent.stopInputBuf (i + 0), SEvent.waitStopStage (i + 0)] ::
        (List.range m).map (fun k => [SEvent.stopInputBuf (i + 1 + k),
          SEvent.waitStopStage (i + 1 + k)]))).join =
        [SEvent.stopInputBuf (i + 0), SEvent.waitStopStage (i + 0)] ++
        ((List.range m).map (fun k => [SEvent.stopInputBuf (i + 1 + k),
          SEvent.waitStopStage (i + 1 + k)])).join := rfl
    rw [h3, ih (i + 1)]
    simp [drainSeq]

/-- `ProcessingStage::run` (openbr.h lines 836-853), given the frames its
input buffer will deliver before the end marker: each frame's data is
transformed in place by `projectUpdate` and pushed onto the output buffer
(a `DoubleBuffer`); on the end marker the worker calls `markStop` and
exits.  The returned state is the output buffer's final state — note the
worker never calls `stoppedInput` on it. -/
def workerRun (t : List α → List α) :
    List (Stream.Frame α) → DB.State (Stream.Frame α) → DB.State (Stream.Frame α)
  | [], out => out
  | f :: rest, out => workerRun t rest (DB.addItem out ⟨f.seq, t f.data⟩)

theorem workerRun_no_input (t : List α → List α)
    (frames : List (Stream.Frame α)) (out : DB.State (Stream.Frame α)) :
    (workerRun t frames out).no_input = out.no_input := by
  induction frames generalizing out with
  | nil => rfl
  | cons f rest ih => simpa [workerRun] using ih (DB.addItem out ⟨f.seq, t f.data⟩)

theorem workerRun_pushes (t : List α → List α)
    (frames : List (Stream.Frame α)) (out : DB.State (Stream.Frame α)) :
    (workerRun t frames out).inputBuffer =
      out.inputBuffer ++ frames.map (fun f => ⟨f.seq, t f.data⟩) := by
  induction frames generalizing out with
  | nil => simp [workerRun]
  | cons f rest ih =>
    rw [workerRun, ih]
    simp [DB.addItem]

end Ctrl

/-- **C10.** `StreamTransform::projectUpdate` requires its input
`TemplateList` to contain exactly one `Template`: whenever the input size
differs from 1 the process aborts fatally (`qFatal`, embedded as
`Except.error`, emitting no event — so before any buffer is reset or any
stage is started); under the single-template precondition the abort branch
is unreachable and the call returns normally. -/
theorem claim_C10_single_template_precondition (α : Type) (n : Nat)
    (openOk : Bool) (collected src : List α) :
    (src.length ≠ 1 →
      Ctrl.projectUpdate n openOk collected src =
        Except.error "Expected single template input to stream") ∧
    (src.length = 1 →
      (Ctrl.projectUpdate n openOk collected src).isOk = true) := by
  constructor
  · intro h
    simp [Ctrl.projectUpdate, h]
  · intro h
    by_cases ho : openOk <;>
      simp [Ctrl.projectUpdate, h, ho, Except.isOk, Except.toBool]

/-- Witness for C10: a two-template input aborts with the `qFatal` message;
a single-template input does not abort. -/
theorem claim_C10_single_template_precondition_witness :
    (Ctrl.projectUpdate 1 true [] ([5, 6] : List Nat) =
      Except.error "Expected single template input to stream") ∧
    (Ctrl.projectUpdate 1 true [] ([5] : List Nat)).isOk = true := by
  constructor
  · exact (claim_C10_single_template_precondition Nat 1 true [] [5, 6]).1
      (by decide)
  · exact (claim_C10_single_template_precondition Nat 1 true [] [5]).2 rfl

/-- Counterexample to **C7** as stated: when the data source cannot be
opened, `projectUpdate` warns and returns early with `dst` still equal to
the input (`dst = src` was assigned before the open), so the run finishes
with the single-template input as output — which is not the empty
collection the claim requires. -/
theorem claim_C7_counterexample :
    Ctrl.projectUpdate 2 false [] ([5] : List Nat) =
      Except.ok ([5], [Ctrl.SEvent.warnOpenFailed]) ∧
    ([5] : List Nat) ≠ [] := by
  exact ⟨rfl, by decide⟩

/-- **C7 (amended).** For every streaming run whose data source cannot be
opened or yields nothing (`DataSourceManager::open` returns false),
`projectUpdate` finishes the run immediately with the output collection
left equal to the unchanged single-template input, a logged warning, and no
worker threads spawned (the event list is exactly the warning — no
`poolStartStage`, `poolStartCollector` or buffer event occurs). -/
theorem claim_C7_open_failure (α : Type) (n : Nat) (collected src : List α)
    (h : src.length = 1) :
    Ctrl.projectUpdate n false collected src =
      Except.ok (src, [Ctrl.SEvent.warnOpenFailed]) := by
  simp [Ctrl.projectUpdate, h]

/-- Witness for the amended C7 at a concrete run. -/
theorem claim_C7_open_failure_witness :
    Ctrl.projectUpdate 3 false [] ([9] : List Nat) =
      Except.ok ([9], [Ctrl.SEvent.warnOpenFailed]) :=
  claim_C7_open_failure Nat 3 [] [9] rfl

/-- Counterexample to **C8** as stated: a stage worker that has read the end
marker from its input buffer exits with its output buffer's finished flag
untouched — `ProcessingStage::run` never calls `stoppedInput` on its output
buffer, so the flag the claim requires to become true stays false. -/
theorem claim_C8_counterexample :
    (Ctrl.workerRun (fun l : List Nat => l) [] ⟨[], [], false⟩).no_input
      = false := rfl

/-- **C8 (amended).** During draining, each stage worker, upon reading the
end marker from its input buffer, merely signals its own completion
(`markStop`) and exits, leaving its output buffer's finished flag
unchanged; the finished signal is instead propagated by the orchestrating
caller, which marks buffer i finished and then awaits stage i's completion
signal, one stage at a time in pipeline order (buffer 0, stage 0, buffer 1,
stage 1, …, last buffer, collector). -/
theorem claim_C8_drain_order (α : Type) (n : Nat) (t : List α → List α)
    (frames : List (Stream.Frame α)) (out : DB.State (Stream.Frame α))
    (collected src : List α) (h : src.length = 1) :
    (Ctrl.workerRun t frames out).no_input = out.no_input ∧
    Ctrl.projectUpdate n true collected src = Except.ok (collected,
      ((List.range (n + 1)).map Ctrl.SEvent.startInputBuf)
      ++ ((List.range n).map (fun i => [Ctrl.SEvent.markStartStage i,
          Ctrl.SEvent.poolStartStage i])).join
      ++ [Ctrl.SEvent.markStartCollector, Ctrl.SEvent.poolStartCollector,
          Ctrl.SEvent.runReadStage]
      ++ Ctrl.drainSeq 0 n
      ++ [Ctrl.SEvent.stopInputBuf n, Ctrl.SEvent.waitStopCollector]) := by
  constructor
  · exact Ctrl.workerRun_no_input t frames out
  · have h0 : ((List.range n).map
        (fun k => [Ctrl.SEvent.stopInputBuf k,
          Ctrl.SEvent.waitStopStage k])).join = Ctrl.drainSeq 0 n := by
      have h1 := Ctrl.drainSeq_eq_join n 0
      simpa using h1
    unfold Ctrl.projectUpdate
    rw [if_neg (by simp [h]), if_neg (by simp), h0]

/-- Witness for the amended C8 at a concrete two-stage run. -/
theorem claim_C8_drain_order_witness :
    (Ctrl.workerRun (fun l : List Nat => l) [] ⟨[], [], false⟩).no_input
        = (⟨[], [], false⟩ : DB.State (Stream.Frame Nat)).no_input ∧
    Ctrl.projectUpdate 2 true ([8] : List Nat) [7] = Except.ok ([8],
      ((List.range 3).map Ctrl.SEvent.startInputBuf)
      ++ ((List.range 2).map (fun i => [Ctrl.SEvent.markStartStage i,
          Ctrl.SEvent.poolStartStage i])).join
      ++ [Ctrl.SEvent.markStartCollector, Ctrl.SEvent.poolStartCollector,
          Ctrl.SEvent.runReadStage]
      ++ Ctrl.drainSeq 0 2
      ++ [Ctrl.SEvent.stopInputBuf 2, Ctrl.SEvent.waitStopCollector]) :=
  claim_C8_drain_order Nat 2 (fun l => l) [] ⟨[], [], false⟩ [8] [7] rfl

/-! ## The plugin SDK (src/sdk/openbr_plugin.cpp) -/

namespace Plugin

/-- `br::File` metadata as far as the verified core reads it: the FTE
failure flag (`file.getBool("FTE")` / `file.setBool("FTE")`), the training
label (`file.label()`, the "Label" key), and an abstract remainder. -/
structure BFile (κ : Type) where
  fte : Bool
  label : Int
  rest : κ
  deriving Repr, DecidableEq

/-- `br::Template`: metadata plus the list of channel matrices (matrix type
abstract). -/
structure BTemplate (κ μ : Type) where
  file : BFile κ
  mats : List μ
  deriving Repr, DecidableEq

/-- `_project` (openbr_plugin.cpp lines 1228-1237).  The child transform's
single-item apply is embedded as a fallible function (`none` = it threw).
On an exception `_project` logs a warning (second component `true`) and
replaces the output with `Template(src->file)` — a metadata-only template,
no matrices — with FTE set in its metadata. -/
def tryProject (p : BTemplate κ μ → Option (BTemplate κ μ))
    (src : BTemplate κ μ) : BTemplate κ μ × Bool :=
  match p src with
  | some d => (d, false)
  | none => (⟨{ src.file with fte := true }, []⟩, true)

/-- `Transform::project(const TemplateList&, TemplateList&)`
(openbr_plugin.cpp lines 1251-1262), sequential branch (`parallelism` off —
the parallel branch writes the same `_project` results into the same
slots): `_project` every item in order into the preallocated output; the
second component counts the warning diagnostics logged. -/
def projectList (p : BTemplate κ μ → Option (BTemplate κ μ))
    (src : List (BTemplate κ μ)) : List (BTemplate κ μ) × Nat :=
  (src.map (fun t => (tryProject p t).1),
   (src.filter (fun t => (p t).isNone)).length)

end Plugin

/-- **C3.** Whenever a transform's single-item apply raises an exception —
during batch apply (`Transform::project` over a `TemplateList`) or inside a
streaming stage worker (`ProcessingStage::run`, whose per-frame apply is
modelled from the spec with the same per-item recovery) — the pipeline does
not crash: the offending item is replaced by a metadata-only template (no
matrices) whose FTE flag is set, a diagnostic is logged per failing item,
every other item is processed normally, and batch cardinality, stream
cardinality and sequence numbers are all preserved. -/
theorem claim_C3_apply_failure_recovery (κ μ : Type)
    (p : Plugin.BTemplate κ μ → Option (Plugin.BTemplate κ μ))
    (src : List (Plugin.BTemplate κ μ)) :
    (Plugin.projectList p src).1.length = src.length ∧
    (∀ i t, src.get? i = some t →
      ((p t).isNone →
        (Plugin.projectList p src).1.get? i =
          some ⟨{ t.file with fte := true }, []⟩) ∧
      (∀ d, p t = some d → (Plugin.projectList p src).1.get? i = some d)) ∧
    (Plugin.projectList p src).2 = src.countP (fun t => (p t).isNone) ∧
    (∀ (frames : List (Stream.Frame (Plugin.BTemplate κ μ)))
      (out : DB.State (Stream.Frame (Plugin.BTemplate κ μ))),
      (Ctrl.workerRun (fun l => (Plugin.projectList p l).1)
          frames out).inputBuffer =
        out.inputBuffer ++ frames.map (fun f =>
          ⟨f.seq, (Plugin.projectList p f.data).1⟩)) := by
  refine ⟨by simp [Plugin.projectList], ?_, ?_, ?_⟩
  · intro i t ht
    constructor
    · intro hfail
      have hn : p t = none := Option.isNone_iff_eq_none.mp hfail
      simp only [Plugin.projectList, List.get?_map]
      rw [ht]
      simp [Plugin.tryProject, hn]
    · intro d hd
      simp only [Plugin.projectList, List.get?_map]
      rw [ht]
      simp [Plugin.tryProject, hd]
  · simp [Plugin.projectList, List.countP_eq_length_filter]
  · intro frames out
    exact Ctrl.workerRun_pushes _ frames out

/-! ## Composition text (src/sdk/openbr_plugin.cpp lines 1173-1216)

`Transform::make` rewrites composition text and recurses; the factory /
property machinery it drives is `File::init` (lines 285-315) and
`Object::setProperty` (lines 597-645).  Text is embedded as `List Char`. -/

namespace Compose

/-- Modelled from the spec: `QtUtils::parse` (in `core/qtutils.cpp`, not
under src/) splits composition text on a separator character only at
bracket-nesting depth zero — `(...)`, `[...]`, `\x7b...\x7d` and `<...>`
all group (§4.1: bracketed sub-expressions are parsed independently); an
empty text yields no words. -/
def depthDelta (c : Char) : Int :=
  if c = '(' ∨ c = '[' ∨ c = '{' ∨ c = '<' then 1
  else if c = ')' ∨ c = ']' ∨ c = '}' ∨ c = '>' then -1
  else 0

/-- Worker for `splitTop`: accumulate the current word (reversed) while
tracking bracket depth. -/
def splitTopGo (sp : Char) : List Char → Int → List Char → List (List Char)
  | [], _, acc => [acc.reverse]
  | c :: rest, d, acc =>
    if c = sp ∧ d = 0 then acc.reverse :: splitTopGo sp rest 0 []
    else splitTopGo sp rest (d + depthDelta c) (c :: acc)

/-- Modelled from the spec: split on `sp` at bracket depth zero. -/
def splitTop (sp : Char) (s : List Char) : List (List Char) :=
  if s = [] then [] else splitTopGo sp s 0 []

/-- The backwards scan of `File::init` (openbr_plugin.cpp lines 292-298):
given the reversed name with the trailing close bracket already removed,
find the matching open bracket (depth counting only this bracket pair, as
the C++ loop does); return the parameter text (forward order) and the
reversed remainder of the name.  `none` embeds the `qFatal("Unable to
parse")` when no match exists. -/
def splitBracketRev (opn cls : Char) :
    List Char → Int → List Char → Option (List Char × List Char)
  | [], _, _ => none
  | c :: rest, d, acc =>
    let d' := if c = cls then d - 1 else if c = opn then d + 1 else d
    if d' = 0 then some (acc, rest)
    else splitBracketRev opn cls rest d' (c :: acc)

/-- `File::insertParameter(index, value)`: key `_Arg<index>`, later inserts
overwrite. -/
def insertPos (args : List (Nat × List Char)) (i : Nat) (v : List Char) :
    List (Nat × List Char) :=
  if args.any (fun p => p.1 = i) then
    args.map (fun p => if p.1 = i then (i, v) else p)
  else args ++ [(i, v)]

/-- The outcome of `File::init`: the remaining name, the positional
(`_ArgN`) parameters and the named (`key=value` or bare-key) parameters. -/
structure BrFile where
  name : List Char
  args : List (Nat × List Char)
  named : List (List Char × Option (List Char))
  deriving Repr, DecidableEq

/-- Process one bracket group's parameter list (openbr_plugin.cpp lines
300-310): split on commas at depth zero, each word split on `=`; one word
is a positional parameter (`(...)` groups) or a bare key (`[...]` groups),
two words are `key=value`, any other count is the `checkArgsSize` fatal. -/
def addParams (unnamed : Bool) (ws : List (List Char)) (f : BrFile) :
    Option BrFile :=
  (ws.enum).foldlM (fun (acc : BrFile) (p : Nat × List Char) => do
    let kv := splitTop '=' p.2
    match kv with
    | [k] =>
      if unnamed then
        pure { acc with args := insertPos acc.args p.1 k }
      else
        pure { acc with named := acc.named ++ [(k, none)] }
    | [k, v] => pure { acc with named := acc.named ++ [(k, some v)] }
    | _ => none) f

/-- The trailing-group loop of `File::init` (openbr_plugin.cpp lines
289-312): while the name ends in `)` or `]`, strip the matching group and
record its parameters.  Each iteration consumes at least the two bracket
characters, so `name.length` fuels the loop. -/
def fileInitGo : Nat → BrFile → Option BrFile
  | 0, f => some f
  | fuel + 1, f =>
    match f.name.getLast? with
    | some ')' => do
      let (params, restRev) ←
        splitBracketRev '(' ')' f.name.reverse.tail (-1) []
      let f' ← addParams true (splitTop ',' params)
        { f with name := restRev.reverse }
      fileInitGo fuel f'
    | some ']' => do
      let (params, restRev) ←
        splitBracketRev '[' ']' f.name.reverse.tail (-1) []
      let f' ← addParams false (splitTop ',' params)
        { f with name := restRev.reverse }
      fileInitGo fuel f'
    | _ => some f

/-- `File::init` (openbr_plugin.cpp lines 285-315) on composition text. -/
def fileInit (s : List Char) : Option BrFile :=
  fileInitGo s.length ⟨s, [], []⟩

/-- The tree of transforms `Transform::make` constructs.  Modelled from the
spec for the five composite plugin classes, which are not under src/:
`Pipe`/`Chain`/`Fork` (Sequence, Cross-chain, Alternative-merge) hold an
ordered child list as their first property, `Cache`/`LoadStore` (Cache,
Persisted-store) hold one child transform as their first property; a leaf
keeps its factory name and its constructor arguments; `indep` is the
`Independent` adapter wrapper (openbr_plugin.cpp lines 1071-1161). -/
inductive TTree where
  | leaf (name : List Char) (args : List (Nat × List Char))
  | pipe (children : List TTree)
  | chain (children : List TTree)
  | fork (children : List TTree)
  | cache (child : TTree)
  | loadStore (child : TTree)
  | indep (child : TTree)

/-- `QStringList::join(",")`. -/
def joinComma : List (List Char) → List Char
  | [] => []
  | [w] => w
  | w :: rest => w ++ ',' :: joinComma rest

/-- First positional argument, if any. -/
def arg0 (f : BrFile) : Option (List Char) :=
  (f.args.find? (fun p => p.1 = 0)).map Prod.snd

/-- One textual rewriting step of `Transform::make` (openbr_plugin.cpp
lines 1173-1216), with `rec` standing for the recursive invocation: expand
a registered abbreviation; else split on `!` into `Chain([...])`, on `+`
into `Pipe([...])`, on `/` into `Fork([...])`; else unwrap `\x7b...\x7d` as
`Cache(...)`, `<...>` as `LoadStore(...)`, `(...)` as grouping; otherwise
construct the named transform from the factory (`File f = "." + str`), and
wrap it in `Independent` when its registered implementation declares itself
independent (`leafIndep`).  The factory/property step for the composite
names parses the first positional argument per `Object::setProperty`
(lines 605-628): a transform-list property requires a `[...]` value whose
first and last characters are stripped and whose comma-separated elements
recurse through `Transform::make`; a transform property recurses directly.
`none` embeds the fatal construction errors. -/
def makeStep (leafIndep : List Char → Bool)
    (abbrevs : List (List Char × List Char))
    (rec : List Char → Option TTree) (s : List Char) : Option TTree :=
  match (abbrevs.find? (fun p => p.1 = s)).map Prod.snd with
  | some expansion => rec expansion
  | none =>
    let wb := splitTop '!' s
    if 1 < wb.length then
      rec ("Chain([".data ++ joinComma wb ++ "])".data)
    else
      let wp := splitTop '+' s
      if 1 < wp.length then
        rec ("Pipe([".data ++ joinComma wp ++ "])".data)
      else
        let wf := splitTop '/' s
        if 1 < wf.length then
          rec ("Fork([".data ++ joinComma wf ++ "])".data)
        else if s.head? = some '{' ∧ s.getLast? = some '}' then
          rec ("Cache(".data ++ (s.drop 1).dropLast ++ ")".data)
        else if s.head? = some '<' ∧ s.getLast? = some '>' then
          rec ("LoadStore(".data ++ (s.drop 1).dropLast ++ ")".data)
        else if s.head? = some '(' ∧ s.getLast? = some ')' then
          rec ((s.drop 1).dropLast)
        else do
          let f ← fileInit ('.' :: s)
          match f.name with
          | '.' :: nm =>
            if nm = "Pipe".data ∨ nm = "Chain".data ∨ nm = "Fork".data then
              match arg0 f with
              | some a0 =>
                if a0.head? = some '[' then do
                  let parts := splitTop ',' ((a0.drop 1).dropLast)
                  let children ← parts.mapM rec
                  if nm = "Pipe".data then pure (TTree.pipe children)
                  else if nm = "Chain".data then pure (TTree.chain children)
                  else pure (TTree.fork children)
                else none
              | none =>
                -- no argument: the child-list property keeps its default
                -- empty value
                if nm = "Pipe".data then pure (TTree.pipe [])
                else if nm = "Chain".data then pure (TTree.chain [])
                else pure (TTree.fork [])
            else if nm = "Cache".data ∨ nm = "LoadStore".data then
              match arg0 f with
              | some a0 => do
                let child ← rec a0
                if nm = "Cache".data then pure (TTree.cache child)
                else pure (TTree.loadStore child)
              | none => none
            else
              let t := TTree.leaf nm f.args
              pure (if leafIndep nm then TTree.indep t else t)
          | _ => none

/-- `Transform::make`: iterate `makeStep`, the fuel bounding the recursion
depth of the C++ function (which recurses on rewritten text). -/
def make (leafIndep : List Char → Bool)
    (abbrevs : List (List Char × List Char)) (fuel : Nat) :
    List Char → Option TTree :=
  Nat.rec (motive := fun _ => List Char → Option TTree)
    (fun _ => none)
    (fun _ prev => makeStep leafIndep abbrevs prev)
    fuel

/-- `Transform::make` on a string. -/
def makeStr (leafIndep : List Char → Bool)
    (abbrevs : List (List Char × List Char)) (fuel : Nat) (s : String) :
    Option TTree :=
  make leafIndep abbrevs fuel s.data

end Compose

/-- **C4.** `Transform::make` parses composition text by first expanding
registered abbreviations, then splitting on `!` into a Chain (Cross-chain),
then on `+` into a Pipe (Sequence), then on `/` into a Fork
(Alternative-merge), then unwrapping braces as Cache, `<...>` as LoadStore
and `(...)` as grouping, recursing on each sub-expression.  Witnessed on a
registry with no independent leaf and the abbreviation `Abb := "A+B"`:
`"A+B"` is a Sequence of A then B in that order; `"(A+B)/C"` is an
Alternative-merge whose first child is the Sequence of A and B; `"A/B"` is
an Alternative-merge of two children; brace-wrapped `"A"` is a Cache of A;
`"<A>"` a LoadStore of A; `"A!B+C"` splits on `!` before `+` and `"A+B/C"`
on `+` before `/` (the grammar's precedence order); and `"Abb"` expands the
abbreviation before any splitting. -/
theorem claim_C4_make_grammar :
    Compose.makeStr (fun _ => false) [("Abb".data, "A+B".data)] 32 "A+B" =
      some (Compose.TTree.pipe
        [Compose.TTree.leaf "A".data [], Compose.TTree.leaf "B".data []]) ∧
    Compose.makeStr (fun _ => false) [("Abb".data, "A+B".data)] 32 "(A+B)/C" =
      some (Compose.TTree.fork
        [Compose.TTree.pipe
          [Compose.TTree.leaf "A".data [], Compose.TTree.leaf "B".data []],
         Compose.TTree.leaf "C".data []]) ∧
    Compose.makeStr (fun _ => false) [("Abb".data, "A+B".data)] 32 "A/B" =
      some (Compose.TTree.fork
        [Compose.TTree.leaf "A".data [], Compose.TTree.leaf "B".data []]) ∧
    Compose.makeStr (fun _ => false) [("Abb".data, "A+B".data)] 32 "\x7bA\x7d" =
      some (Compose.TTree.cache (Compose.TTree.leaf "A".data [])) ∧
    Compose.makeStr (fun _ => false) [("Abb".data, "A+B".data)] 32 "<A>" =
      some (Compose.TTree.loadStore (Compose.TTree.leaf "A".data [])) ∧
    Compose.makeStr (fun _ => false) [("Abb".data, "A+B".data)] 32 "A!B+C" =
      some (Compose.TTree.chain
        [Compose.TTree.leaf "A".data [],
         Compose.TTree.pipe
          [Compose.TTree.leaf "B".data [], Compose.TTree.leaf "C".data []]]) ∧
    Compose.makeStr (fun _ => false) [("Abb".data, "A+B".data)] 32 "A+B/C" =
      some (Compose.TTree.pipe
        [Compose.TTree.leaf "A".data [],
         Compose.TTree.fork
          [Compose.TTree.leaf "B".data [], Compose.TTree.leaf "C".data []]]) ∧
    Compose.makeStr (fun _ => false) [("Abb".data, "A+B".data)] 32 "Abb" =
      some (Compose.TTree.pipe
        [Compose.TTree.leaf "A".data [], Compose.TTree.leaf "B".data []]) :=
  ⟨rfl, rfl, rfl, rfl, rfl, rfl, rfl, rfl⟩

namespace Plugin

/-- `Independent::project` (openbr_plugin.cpp lines 1132-1140): for each
channel `i` of `src`, apply the child clone `transforms[i % size]` to the
single-channel template `Template(src.file, src[i])` — the channel paired
with the parent item's metadata — and merge the result into `dst`, which
starts as a matrix-less copy of `src`'s metadata.  `Template::merge` is
modelled from the spec ("merges the k per-channel results back into one
output item", openbr_plugin.h not being under src/) as appending the
result's matrices and combining the metadata through `mergeMeta`. -/
def independentProject (mergeMeta : BFile κ → BFile κ → BFile κ)
    (transforms : List (BTemplate κ μ → BTemplate κ μ))
    (src : BTemplate κ μ) : BTemplate κ μ :=
  (src.mats.enum).foldl
    (fun dst p =>
      let m := (transforms.getD (p.1 % transforms.length)
        (fun t => t)) ⟨src.file, [p.2]⟩
      ⟨mergeMeta dst.file m.file, dst.mats ++ m.mats⟩)
    ⟨src.file, []⟩

theorem independentProject_foldl_aux (mergeMeta : BFile κ → BFile κ → BFile κ)
    (g : Nat × μ → BTemplate κ μ) :
    ∀ (l : List (Nat × μ)) (dst : BTemplate κ μ),
      l.foldl (fun dst p => (⟨mergeMeta dst.file (g p).file,
          dst.mats ++ (g p).mats⟩ : BTemplate κ μ)) dst =
        ⟨(l.map (fun p => (g p).file)).foldl mergeMeta dst.file,
         dst.mats ++ (l.map (fun p => (g p).mats)).join⟩ := by
  intro l
  induction l with
  | nil => intro dst; simp
  | cons p l' ih =>
    intro dst
    rw [List.foldl_cons, ih]
    simp

/-- `Independent::project`, characterized: the output matrices are the
concatenation of the per-channel results' matrices in channel order, and
the output metadata is `src`'s metadata merged with each per-channel
result's metadata in channel order. -/
theorem independentProject_spec (mergeMeta : BFile κ → BFile κ → BFile κ)
    (transforms : List (BTemplate κ μ → BTemplate κ μ))
    (src : BTemplate κ μ) :
    independentProject mergeMeta transforms src =
      ⟨(src.mats.enum.map (fun p => ((transforms.getD (p.1 % transforms.length)
          (fun t => t)) ⟨src.file, [p.2]⟩).file)).foldl mergeMeta src.file,
       (src.mats.enum.map (fun p => ((transforms.getD (p.1 % transforms.length)
          (fun t => t)) ⟨src.file, [p.2]⟩).mats)).join⟩ := by
  unfold independentProject
  rw [independentProject_foldl_aux]
  simp

/-- Before training (`Independent`'s constructor stores a single child
clone), every channel goes through the same child instance: the `i % size`
indexing degenerates to index 0. -/
theorem independentProject_single (mergeMeta : BFile κ → BFile κ → BFile κ)
    (f : BTemplate κ μ → BTemplate κ μ) (src : BTemplate κ μ) :
    independentProject mergeMeta [f] src =
      ⟨(src.mats.map (fun m => (f ⟨src.file, [m]⟩).file)).foldl
          mergeMeta src.file,
       (src.mats.map (fun m => (f ⟨src.file, [m]⟩).mats)).join⟩ := by
  rw [independentProject_spec]
  have hmap : ∀ (β : Type) (h : μ → β),
      src.mats.enum.map (fun p => h p.2) = src.mats.map h := by
    intro β h
    have he := List.enum_map_snd src.mats
    calc src.mats.enum.map (fun p => h p.2)
        = (src.mats.enum.map Prod.snd).map h := by
          rw [List.map_map]
          rfl
      _ = src.mats.map h := by rw [he]
  simp only [List.length_cons, List.length_nil, Nat.zero_add, Nat.mod_one,
    List.getD_cons_zero]
  rw [hmap (BFile κ) (fun m => (f ⟨src.file, [m]⟩).file),
    hmap (List μ) (fun m => (f ⟨src.file, [m]⟩).mats)]

end Plugin

/-- **C5.** A leaf transform whose registered implementation declares
itself independent is wrapped by `Transform::make` in the `Independent`
adapter before being returned; and the adapter's single-item apply on a
k-channel item applies the child instance to each channel separately —
each channel paired with the parent item's metadata as a single-channel
sub-item — and merges the k per-channel results back into one output item
(matrices concatenated in channel order, metadata combined in channel
order), shown both for arbitrary k and on a 3-channel item. -/
theorem claim_C5_independent_transparency :
    (Compose.makeStr (fun n => n = "Leaf".data) [] 32 "Leaf" =
      some (Compose.TTree.indep (Compose.TTree.leaf "Leaf".data []))) ∧
    (∀ (κ μ : Type) (mergeMeta : Plugin.BFile κ → Plugin.BFile κ → Plugin.BFile κ)
      (f : Plugin.BTemplate κ μ → Plugin.BTemplate κ μ)
      (src : Plugin.BTemplate κ μ),
      Plugin.independentProject mergeMeta [f] src =
        ⟨(src.mats.map (fun m => (f ⟨src.file, [m]⟩).file)).foldl
            mergeMeta src.file,
         (src.mats.map (fun m => (f ⟨src.file, [m]⟩).mats)).join⟩) ∧
    (∀ (κ μ : Type) (mergeMeta : Plugin.BFile κ → Plugin.BFile κ → Plugin.BFile κ)
      (f : Plugin.BTemplate κ μ → Plugin.BTemplate κ μ)
      (fl : Plugin.BFile κ) (a b c : μ),
      Plugin.independentProject mergeMeta [f] ⟨fl, [a, b, c]⟩ =
        ⟨mergeMeta (mergeMeta (mergeMeta fl (f ⟨fl, [a]⟩).file)
            (f ⟨fl, [b]⟩).file) (f ⟨fl, [c]⟩).file,
         (f ⟨fl, [a]⟩).mats ++ (f ⟨fl, [b]⟩).mats ++ (f ⟨fl, [c]⟩).mats⟩) := by
  refine ⟨rfl, fun κ μ mergeMeta f src =>
    Plugin.independentProject_single mergeMeta f src, ?_⟩
  intro κ μ mergeMeta f fl a b c
  rw [Plugin.independentProject_single]
  simp [List.append_assoc]

namespace Plugin

/-- One iteration of the partition loop of `Independent::train`
(openbr_plugin.cpp lines 1106-1114) over the accumulated per-channel
template lists and the warning count: if the incoming template's channel
count differs from the current list count and the lists are nonempty, a
`qWarning` is logged (the warning count increments — the loop does NOT
abort); the list of lists then grows to the template's channel count, and
channel `i` of the template, paired with the template's file, is appended
to list `i`. -/
def trainStep (acc : List (List (BFile κ × μ)) × Nat) (t : BTemplate κ μ) :
    List (List (BFile κ × μ)) × Nat :=
  let warns := if acc.1.length ≠ t.mats.length ∧ acc.1.isEmpty = false
               then acc.2 + 1 else acc.2
  let grown := acc.1 ++ List.replicate (t.mats.length - acc.1.length) []
  (grown.enum.map (fun p =>
    match t.mats[p.1]? with
    | some m => p.2 ++ [(t.file, m)]
    | none => p.2), warns)

/-- The partition phase of `Independent::train` (openbr_plugin.cpp lines
1100-1121, before the per-channel `Downsample` and child training): build
the per-channel training lists and count the warnings.  The result is
wrapped in `Except` as elsewhere: a `qFatal` would be an `Except.error`,
and this loop contains none. -/
def independentTrain (data : List (BTemplate κ μ)) :
    Except String (List (List (BFile κ × μ)) × Nat) :=
  Except.ok (data.foldl trainStep ([], 0))

theorem trainStep_length (acc : List (List (BFile κ × μ)) × Nat)
    (t : BTemplate κ μ) :
    (trainStep acc t).1.length = max acc.1.length t.mats.length := by
  simp [trainStep]
  omega

theorem trainStep_getElem? (acc : List (List (BFile κ × μ)) × Nat)
    (t : BTemplate κ μ) (i : Nat)
    (hi : i < max acc.1.length t.mats.length) :
    (trainStep acc t).1[i]? =
      some (acc.1.getD i [] ++
        ((t.mats[i]?).map (fun m => (t.file, m))).toList) := by
  have hgrown : (acc.1 ++ List.replicate (t.mats.length - acc.1.length)
      ([] : List (BFile κ × μ)))[i]? = some (acc.1.getD i []) := by
    rcases Nat.lt_or_ge i acc.1.length with hlt | hge
    · rw [List.getElem?_append, if_pos hlt, List.getD_eq_getElem?_getD,
        List.getElem?_eq_getElem hlt]
      rfl
    · rw [List.getElem?_append_right hge, List.getElem?_replicate,
        if_pos (by omega), List.getD_eq_getElem?_getD,
        List.getElem?_eq_none hge]
      rfl
  simp only [trainStep, List.getElem?_map, List.getElem?_enum, hgrown]
  rcases hm : t.mats[i]? with _ | m <;> simp [hm]

/-- The per-channel list at index `i` after folding the whole batch:
channel `i` of every template that has more than `i` channels, paired with
that template's file, in batch order. -/
theorem trainFold_getElem? (data : List (BTemplate κ μ)) :
    ∀ (acc : List (List (BFile κ × μ)) × Nat) (i : Nat),
      i < (data.foldl trainStep acc).1.length →
      (data.foldl trainStep acc).1[i]? =
        some (acc.1.getD i [] ++ data.filterMap
          (fun t => (t.mats[i]?).map (fun m => (t.file, m)))) := by
  induction data with
  | nil =>
    intro acc i hi
    simp only [List.foldl_nil, List.filterMap_nil, List.append_nil] at hi ⊢
    rw [List.getD_eq_getElem?_getD, List.getElem?_eq_getElem hi]
    rfl
  | cons t rest ih =>
    intro acc i hi
    simp only [List.foldl_cons] at hi ⊢
    rw [ih (trainStep acc t) i hi]
    rcases Nat.lt_or_ge i (max acc.1.length t.mats.length) with hlt | hge
    · have hstep : (trainStep acc t).1.getD i [] =
          acc.1.getD i [] ++ ((t.mats[i]?).map (fun m => (t.file, m))).toList := by
        rw [List.getD_eq_getElem?_getD, trainStep_getElem? acc t i hlt]
        rfl
      rw [hstep]
      rcases hm : t.mats[i]? with _ | m <;>
        simp [List.filterMap_cons, hm, List.append_assoc]
    · have hacc : acc.1.getD i [] = [] := by
        rw [List.getD_eq_getElem?_getD, List.getElem?_eq_none (by omega)]
        rfl
      have hstep : (trainStep acc t).1.getD i [] = [] := by
        rw [List.getD_eq_getElem?_getD, List.getElem?_eq_none (by
          rw [trainStep_length]
          omega)]
        rfl
      have hm : t.mats[i]? = none := List.getElem?_eq_none (by omega)
      rw [hstep, hacc]
      simp [List.filterMap_cons, hm]

end Plugin

/-- Counterexample to **C9** as stated: `Independent::train` on a batch
whose templates have 2 and 1 channels does not abort — the partition loop
completes normally (`Except.ok`, no fatal), logging one warning and
partitioning the channels; the claim's required fatal abort does not
happen. -/
theorem claim_C9_counterexample :
    Plugin.independentTrain
      [⟨⟨false, 0, ()⟩, [1, 2]⟩,
       (⟨⟨false, 1, ()⟩, [3]⟩ : Plugin.BTemplate Unit Nat)] =
      Except.ok ([[(⟨false, 0, ()⟩, 1), (⟨false, 1, ()⟩, 3)],
                  [(⟨false, 0, ()⟩, 2)]], 1) := rfl

/-- **C9 (amended).** Training a Per-channel adapter
(`Independent::train`) on a batch whose templates have mismatched channel
counts is not fatal: the partition loop at worst logs warnings and always
completes — the operation never aborts with partially-trained state —
partitioning every template's channels into per-channel training lists
(channel `i` receives channel `i` of every template having more than `i`
channels, paired with that template's metadata, in batch order). -/
theorem claim_C9_train_mismatch (κ μ : Type)
    (data : List (Plugin.BTemplate κ μ)) :
    ∃ lists warns, Plugin.independentTrain data = Except.ok (lists, warns) ∧
      ∀ i, i < lists.length →
        lists[i]? = some (data.filterMap
          (fun t => (t.mats[i]?).map (fun m => (t.file, m)))) := by
  refine ⟨(data.foldl Plugin.trainStep ([], 0)).1,
    (data.foldl Plugin.trainStep ([], 0)).2, rfl, ?_⟩
  intro i hi
  rw [Plugin.trainFold_getElem? data ([], 0) i hi]
  simp

namespace Plugin

/-- `std::numeric_limits<int>::max()`, the "no cap" sentinel of the
downsampling parameters. -/
def intMax : Int := 2147483647

/-- The downsampling parameters every `Transform` carries
(openbr_plugin.cpp lines 1164-1171): `classes` and `instances` default to
INT_MAX, `fraction` to 1, `relabel` to false.  `fraction` (a C++ double,
assumed a nonnegative exact value) is embedded as a rational; the
`size * fraction` int conversion truncates, which for nonnegative values
is the floor. -/
structure DSParams where
  classes : Int
  instances : Int
  fraction : ℚ
  relabel : Bool

/-- Modelled from the spec: `TemplateList::labelCounts(bool
excludeFailures)` (declared in openbr_plugin.h, which is not under src/) —
the per-label occurrence counts of the batch as a key-sorted map (`QMap`),
skipping FTE-marked templates when the flag is set. -/
def labelCounts (templates : List (BTemplate κ μ)) (excludeFailures : Bool) :
    List (Int × Nat) :=
  let ls := (templates.filter
    (fun t => !(excludeFailures && t.file.fte))).map (fun t => t.file.label)
  (List.insertionSort (· ≤ ·) ls.dedup).map (fun l => (l, ls.count l))

/-- `Downsample` lines 1021-1030: the label-count map, with labels having
fewer than `instances` occurrences removed when both caps are set; its keys
replace `uniqueLabels`. -/
def dsCounts2 (tr : DSParams) (templates : List (BTemplate κ μ)) :
    List (Int × Nat) :=
  let counts := labelCounts templates (decide (tr.instances ≠ intMax))
  if tr.instances ≠ intMax ∧ tr.classes ≠ intMax then
    counts.filter (fun p => decide (tr.instances.natAbs ≤ p.2))
  else counts

/-- `Downsample` lines 1030-1039: the candidate labels in key order. -/
def dsUnique (tr : DSParams) (templates : List (BTemplate κ μ)) : List Int :=
  (dsCounts2 tr templates).map Prod.fst

/-- `QList::mid(0, len)` with Qt's semantics: a negative `len` means "to
the end of the list", otherwise the first `len` elements are kept. -/
def midQt (l : List α) (len : Int) : List α :=
  if len < 0 then l else l.take len.toNat

theorem midQt_sublist (l : List α) (len : Int) : (midQt l len).Sublist l := by
  unfold midQt
  by_cases h : len < 0
  · rw [if_pos h]
  · rw [if_neg h]
    exact List.take_sublist _ _

/-- `Downsample` lines 1035-1039: when more candidate labels exist than the
class cap, shuffle them (`shL` embeds `std::random_shuffle`) and keep the
first `classes` (`selectedLabels.mid(0, classes)`, with Qt's negative-length
semantics). -/
def dsSelected (shL : List Int → List Int) (tr : DSParams)
    (templates : List (BTemplate κ μ)) : List Int :=
  let uniqueLabels := dsUnique tr templates
  if tr.classes < (uniqueLabels.length : Int) then
    midQt (shL uniqueLabels) tr.classes
  else uniqueLabels

/-- `Downsample` lines 1042-1055, one iteration of the selection loop for
the `q.1`-th selected label `q.2`: collect the indices of the non-FTE
templates carrying the label, shuffle them (`shI q.1`), keep the first
`min(count, instances)` (all of them in "at least" mode), and emit those
templates, relabelled to the selection index `q.1` when `relabel` is
set. -/
def dsGroup (shI : Nat → List Nat → List Nat) (tr : DSParams)
    (templates : List (BTemplate κ μ)) (q : Nat × Int) :
    List (BTemplate κ μ) :=
  let indices := (templates.enum.filter (fun p =>
    decide (p.2.file.label = q.2) && !p.2.file.fte)).map Prod.fst
  let shuffled := shI q.1 indices
  let mx := if tr.instances < 0 then shuffled.length
            else min shuffled.length tr.instances.natAbs
  (shuffled.take mx).filterMap (fun j =>
    (templates[j]?).map (fun t =>
      if tr.relabel then { t with file := { t.file with label := (q.1 : Int) } }
      else t))

/-- `Downsample` lines 1041-1055: the selection before the fraction step. -/
def dsPre (shL : List Int → List Int) (shI : Nat → List Nat → List Nat)
    (tr : DSParams) (templates : List (BTemplate κ μ)) :
    List (BTemplate κ μ) :=
  ((dsSelected shL tr templates).enum.map (dsGroup shI tr templates)).join

/-- `Downsample` (openbr_plugin.cpp lines 1010-1063): return the batch
unchanged when no cap is set; otherwise select per label, then, when a
fraction below 1 is set, shuffle (`shF`) and truncate to the fraction
(`downsample.mid(0, downsample.size()*fraction)`, again with Qt's
negative-length semantics when the fraction is negative). -/
def Downsample (shL : List Int → List Int) (shI : Nat → List Nat → List Nat)
    (shF : List (BTemplate κ μ) → List (BTemplate κ μ)) (tr : DSParams)
    (templates : List (BTemplate κ μ)) : List (BTemplate κ μ) :=
  if tr.classes = intMax ∧ tr.instances = intMax ∧ 1 ≤ tr.fraction then
    templates
  else if tr.fraction < 1 then
    let sh := shF (dsPre shL shI tr templates)
    midQt sh (((sh.length : ℚ) * tr.fraction).floor)
  else dsPre shL shI tr templates

theorem labelCounts_keys_nodup (templates : List (BTemplate κ μ))
    (ex : Bool) : ((labelCounts templates ex).map Prod.fst).Nodup := by
  unfold labelCounts
  rw [List.map_map]
  have hid : (Prod.fst ∘ fun l : Int =>
      (l, ((templates.filter (fun t => !(ex && t.file.fte))).map
        (fun t => t.file.label)).count l)) = id := rfl
  rw [hid, List.map_id]
  exact (List.perm_insertionSort (· ≤ ·) _).symm.nodup (List.nodup_dedup _)

theorem dsUnique_nodup (tr : DSParams) (templates : List (BTemplate κ μ)) :
    (dsUnique tr templates).Nodup := by
  unfold dsUnique dsCounts2
  by_cases h : tr.instances ≠ intMax ∧ tr.classes ≠ intMax
  · rw [if_pos h]
    exact ((List.filter_sublist _).map Prod.fst).nodup
      (labelCounts_keys_nodup templates _)
  · rw [if_neg h]
    exact labelCounts_keys_nodup templates _

theorem dsSelected_nodup (shL : List Int → List Int) (tr : DSParams)
    (templates : List (BTemplate κ μ)) (hL : ∀ l, (shL l).Perm l) :
    (dsSelected shL tr templates).Nodup := by
  unfold dsSelected
  by_cases h : tr.classes < ((dsUnique tr templates).length : Int)
  · rw [if_pos h]
    exact (midQt_sublist _ _).nodup
      ((hL (dsUnique tr templates)).symm.nodup (dsUnique_nodup tr templates))
  · rw [if_neg h]
    exact dsUnique_nodup tr templates

theorem dsSelected_length_le (shL : List Int → List Int) (tr : DSParams)
    (templates : List (BTemplate κ μ)) (hnn : 0 ≤ tr.classes) :
    (dsSelected shL tr templates).length ≤ tr.classes.toNat := by
  unfold dsSelected
  by_cases h : tr.classes < ((dsUnique tr templates).length : Int)
  · rw [if_pos h]
    unfold midQt
    rw [if_neg (by omega)]
    simp [List.length_take]
  · rw [if_neg h]
    have h2 : ((dsUnique tr templates).length : Int) ≤ tr.classes := by omega
    have h3 : (0 : Int) ≤ tr.classes :=
      le_trans (Int.natCast_nonneg _) h2
    exact (Int.le_toNat h3).mpr h2

theorem dsGroup_length_le (shI : Nat → List Nat → List Nat) (tr : DSParams)
    (templates : List (BTemplate κ μ)) (q : Nat × Int)
    (hexact : 0 ≤ tr.instances) :
    (dsGroup shI tr templates q).length ≤ tr.instances.toNat := by
  have hneg : ¬ tr.instances < 0 := by omega
  dsimp only [dsGroup]
  rw [if_neg hneg]
  generalize shI q.1 _ = sh
  refine le_trans (List.length_filterMap_le _ _) ?_
  rw [List.length_take]
  omega

theorem dsGroup_mem_label (shI : Nat → List Nat → List Nat) (tr : DSParams)
    (templates : List (BTemplate κ μ)) (q : Nat × Int)
    (hI : ∀ i l, (shI i l).Perm l) (t : BTemplate κ μ)
    (ht : t ∈ dsGroup shI tr templates q) :
    t.file.label = if tr.relabel then (q.1 : Int) else q.2 := by
  dsimp only [dsGroup] at ht
  rw [List.mem_filterMap] at ht
  obtain ⟨j, hj, hjt⟩ := ht
  rcases htj : templates[j]? with _ | t0
  · rw [htj] at hjt
    exact absurd hjt (by simp)
  · rw [htj] at hjt
    simp only [Option.map_some', Option.some.injEq] at hjt
    by_cases hr : tr.relabel
    · rw [if_pos hr] at hjt ⊢
      rw [← hjt]
    · rw [if_neg hr] at hjt ⊢
      subst hjt
      -- j came from the filtered index list, so t0 carries the label q.2
      have hj1 : j ∈ shI q.1 ((templates.enum.filter (fun p =>
          decide (p.2.file.label = q.2) && !p.2.file.fte)).map Prod.fst) :=
        List.mem_of_mem_take hj
      have hj2 : j ∈ (templates.enum.filter (fun p =>
          decide (p.2.file.label = q.2) && !p.2.file.fte)).map Prod.fst :=
        (hI q.1 _).mem_iff.mp hj1
      rw [List.mem_map] at hj2
      obtain ⟨p, hp, hpj⟩ := hj2
      rw [List.mem_filter] at hp
      obtain ⟨hpenum, hpcond⟩ := hp
      have hpget : templates[p.1]? = some p.2 := by
        have := List.mk_mem_enum_iff_getElem?.mp (by
          rw [show (p.1, p.2) = p from rfl]
          exact hpenum)
        exact this
      rw [hpj] at hpget
      rw [htj] at hpget
      have ht0 : t0 = p.2 := by
        injection hpget.symm with h
        exact h.symm
      simp only [Bool.and_eq_true, decide_eq_true_eq] at hpcond
      rw [ht0]
      exact hpcond.1

/-- If a list's entries each are bounded by `B` and at most one of them is
nonzero (any two are not both nonzero), their sum is bounded by `B`. -/
theorem sum_le_of_pairwise_zero (B : ℕ) :
    ∀ (L : List ℕ), (∀ a ∈ L, a ≤ B) →
      L.Pairwise (fun a b => a = 0 ∨ b = 0) → L.sum ≤ B := by
  intro L
  induction L with
  | nil => intro _ _; simp
  | cons a L' ih =>
    intro hB hp
    rcases List.pairwise_cons.mp hp with ⟨ha, hp'⟩
    rcases Nat.eq_zero_or_pos a with h0 | hpos
    · rw [List.sum_cons, h0, Nat.zero_add]
      exact ih (fun b hb => hB b (by simp [hb])) hp'
    · have hz : ∀ b ∈ L', b = 0 := by
        intro b hb
        rcases ha b hb with h | h
        · omega
        · exact h
      have hsum : L'.sum = 0 := by
        rw [List.sum_eq_zero hz]
      rw [List.sum_cons, hsum]
      have := hB a (by simp)
      omega

end Plugin

/-- **C6.** For every training batch given to the downsampling policy with
class cap C (`classes`, a cap being a value with `0 ≤ classes < INT_MAX`),
exact-mode instance cap N (`instances ≥ 0`) and fraction f, and for
arbitrary outcomes of the three
uniform random shuffles (embedded as adversarial permutations `shL`, `shI`,
`shF`): the selected subset carries at most C distinct labels (witnessed by
a label set `S` of at most `K ≤ C` labels covering the output) and, per
selected label, at most N items; and when relabeling is enabled the kept
items' labels are rewritten to the dense range 0..K-1 over the K selected
labels.  The caps are applied in the fixed source order — label selection
(class cap), then the per-label instance cap, then the overall fraction
(`Downsample`'s structure `dsSelected`/`dsGroup`/the final `take`). -/
theorem claim_C6_downsample_bounds (κ μ : Type)
    (shL : List Int → List Int) (shI : Nat → List Nat → List Nat)
    (shF : List (Plugin.BTemplate κ μ) → List (Plugin.BTemplate κ μ))
    (tr : Plugin.DSParams) (templates : List (Plugin.BTemplate κ μ))
    (hL : ∀ l, (shL l).Perm l) (hI : ∀ i l, (shI i l).Perm l)
    (hF : ∀ l, (shF l).Perm l)
    (hcls : tr.classes < Plugin.intMax) (hclsnn : 0 ≤ tr.classes)
    (hexact : 0 ≤ tr.instances) :
    ∃ (K : ℕ) (S : Finset Int),
      K ≤ tr.classes.toNat ∧ S.card ≤ K ∧
      (∀ t ∈ Plugin.Downsample shL shI shF tr templates, t.file.label ∈ S) ∧
      (∀ lab : Int,
        (Plugin.Downsample shL shI shF tr templates).countP
          (fun t => decide (t.file.label = lab)) ≤ tr.instances.toNat) ∧
      (tr.relabel = true →
        ∀ t ∈ Plugin.Downsample shL shI shF tr templates,
          0 ≤ t.file.label ∧ t.file.label < (K : Int)) := by
  have hcases : Plugin.Downsample shL shI shF tr templates =
        Plugin.dsPre shL shI tr templates ∨
      (Plugin.Downsample shL shI shF tr templates).Sublist
        (shF (Plugin.dsPre shL shI tr templates)) := by
    unfold Plugin.Downsample
    rw [if_neg (fun hcon => absurd hcon.1 (ne_of_lt hcls))]
    by_cases hf : tr.fraction < 1
    · rw [if_pos hf]
      exact Or.inr (Plugin.midQt_sublist _ _)
    · rw [if_neg hf]
      exact Or.inl rfl
  have hmem_pre : ∀ t ∈ Plugin.Downsample shL shI shF tr templates,
      t ∈ Plugin.dsPre shL shI tr templates := by
    intro t ht
    rcases hcases with h | h
    · rwa [h] at ht
    · exact (hF _).mem_iff.mp (h.subset ht)
  have hcount_pre : ∀ p : Plugin.BTemplate κ μ → Bool,
      (Plugin.Downsample shL shI shF tr templates).countP p ≤
        (Plugin.dsPre shL shI tr templates).countP p := by
    intro p
    rcases hcases with h | h
    · rw [h]
    · calc (Plugin.Downsample shL shI shF tr templates).countP p
          ≤ (shF (Plugin.dsPre shL shI tr templates)).countP p :=
            h.countP_le p
        _ = (Plugin.dsPre shL shI tr templates).countP p :=
            (hF _).countP_eq p
  -- the group a pre-fraction item came from determines its label
  have hmem_group : ∀ t ∈ Plugin.dsPre shL shI tr templates,
      ∃ q ∈ (Plugin.dsSelected shL tr templates).enum,
        t ∈ Plugin.dsGroup shI tr templates q := by
    intro t ht
    unfold Plugin.dsPre at ht
    rw [List.mem_join] at ht
    obtain ⟨l, hl, htl⟩ := ht
    rw [List.mem_map] at hl
    obtain ⟨q, hq, hql⟩ := hl
    exact ⟨q, hq, hql ▸ htl⟩
  refine ⟨(Plugin.dsSelected shL tr templates).length,
    ((Plugin.dsSelected shL tr templates).enum.map
      (fun q => if tr.relabel then (q.1 : Int) else q.2)).toFinset,
    Plugin.dsSelected_length_le shL tr templates hclsnn, ?_, ?_, ?_, ?_⟩
  · calc ((Plugin.dsSelected shL tr templates).enum.map
        (fun q => if tr.relabel then (q.1 : Int) else q.2)).toFinset.card
        ≤ ((Plugin.dsSelected shL tr templates).enum.map
          (fun q => if tr.relabel then (q.1 : Int) else q.2)).length :=
          List.toFinset_card_le _
      _ = (Plugin.dsSelected shL tr templates).enum.length := by
          rw [List.length_map]
      _ = (Plugin.dsSelected shL tr templates).length := List.enum_length
  · intro t ht
    obtain ⟨q, hq, htq⟩ := hmem_group t (hmem_pre t ht)
    rw [List.mem_toFinset]
    rw [Plugin.dsGroup_mem_label shI tr templates q hI t htq]
    exact List.mem_map_of_mem _ hq
  · intro lab
    refine le_trans (hcount_pre _) ?_
    unfold Plugin.dsPre
    rw [List.countP_join, List.map_map]
    apply Plugin.sum_le_of_pairwise_zero
    · intro a ha
      rw [List.mem_map] at ha
      obtain ⟨q, hq, hqa⟩ := ha
      rw [← hqa]
      exact le_trans (List.countP_le_length _)
        (Plugin.dsGroup_length_le shI tr templates q hexact)
    · rw [List.pairwise_map]
      have hpairlbl : (Plugin.dsSelected shL tr templates).enum.Pairwise
          (fun q1 q2 => (if tr.relabel then (q1.1 : Int) else q1.2) ≠
            (if tr.relabel then (q2.1 : Int) else q2.2)) := by
        by_cases hr : tr.relabel
        · have h1 : ((Plugin.dsSelected shL tr templates).enum.map
              Prod.fst).Nodup := by
            rw [List.enum_map_fst]
            exact List.nodup_range _
          rw [List.Nodup, List.pairwise_map] at h1
          refine h1.imp ?_
          intro q1 q2 hne
          simp only [hr, if_true]
          exact fun hc => hne (by exact_mod_cast hc)
        · have h1 : ((Plugin.dsSelected shL tr templates).enum.map
              Prod.snd).Nodup := by
            rw [List.enum_map_snd]
            exact Plugin.dsSelected_nodup shL tr templates hL
          rw [List.Nodup, List.pairwise_map] at h1
          refine h1.imp ?_
          intro q1 q2 hne
          simpa only [hr, if_false] using hne
      refine hpairlbl.imp ?_
      intro q1 q2 hne
      by_contra hcon
      push_neg at hcon
      obtain ⟨h1, h2⟩ := hcon
      have hp1 : 0 < (Plugin.dsGroup shI tr templates q1).countP
          (fun t => decide (t.file.label = lab)) := Nat.pos_of_ne_zero h1
      have hp2 : 0 < (Plugin.dsGroup shI tr templates q2).countP
          (fun t => decide (t.file.label = lab)) := Nat.pos_of_ne_zero h2
      rw [List.countP_pos] at hp1 hp2
      obtain ⟨t1, ht1, hpt1⟩ := hp1
      obtain ⟨t2, ht2, hpt2⟩ := hp2
      rw [decide_eq_true_eq] at hpt1 hpt2
      apply hne
      rw [← Plugin.dsGroup_mem_label shI tr templates q1 hI t1 ht1,
        ← Plugin.dsGroup_mem_label shI tr templates q2 hI t2 ht2,
        hpt1, hpt2]
  · intro hr t ht
    obtain ⟨q, hq, htq⟩ := hmem_group t (hmem_pre t ht)
    have hlabel := Plugin.dsGroup_mem_label shI tr templates q hI t htq
    rw [hr] at hlabel
    rw [if_pos rfl] at hlabel
    have hi : q.1 < (Plugin.dsSelected shL tr templates).length := by
      have h2 : (q.1, q.2) ∈ (Plugin.dsSelected shL tr templates).enum := by
        simpa using hq
      have h3 := List.mk_mem_enum_iff_getElem?.mp h2
      exact (List.getElem?_eq_some.mp h3).1
    rw [hlabel]
    exact ⟨Int.natCast_nonneg _, by exact_mod_cast hi⟩

/-- Witness for C6 at a concrete batch: two single-channel items with
labels 5 and 7, class cap 1, instance cap 1, fraction 1, relabeling on,
identity shuffles. -/
theorem claim_C6_downsample_bounds_witness :
    ∃ (K : ℕ) (S : Finset Int),
      K ≤ (1 : Int).toNat ∧ S.card ≤ K ∧
      (∀ t ∈ Plugin.Downsample (fun l => l) (fun _ l => l) (fun l => l)
          ⟨1, 1, 1, true⟩
          [⟨⟨false, 5, ()⟩, [()]⟩,
           (⟨⟨false, 7, ()⟩, [()]⟩ : Plugin.BTemplate Unit Unit)],
        t.file.label ∈ S) ∧
      (∀ lab : Int,
        (Plugin.Downsample (fun l => l) (fun _ l => l) (fun l => l)
          ⟨1, 1, 1, true⟩
          [⟨⟨false, 5, ()⟩, [()]⟩,
           (⟨⟨false, 7, ()⟩, [()]⟩ : Plugin.BTemplate Unit Unit)]).countP
          (fun t => decide (t.file.label = lab)) ≤ (1 : Int).toNat) ∧
      ((⟨1, 1, 1, true⟩ : Plugin.DSParams).relabel = true →
        ∀ t ∈ Plugin.Downsample (fun l => l) (fun _ l => l) (fun l => l)
          ⟨1, 1, 1, true⟩
          [⟨⟨false, 5, ()⟩, [()]⟩,
           (⟨⟨false, 7, ()⟩, [()]⟩ : Plugin.BTemplate Unit Unit)],
          0 ≤ t.file.label ∧ t.file.label < (K : Int)) :=
  claim_C6_downsample_bounds Unit Unit (fun l => l) (fun _ l => l)
    (fun l => l) ⟨1, 1, 1, true⟩
    [⟨⟨false, 5, ()⟩, [()]⟩, ⟨⟨false, 7, ()⟩, [()]⟩]
    (fun l => List.Perm.refl l) (fun _ l => List.Perm.refl l)
    (fun l => List.Perm.refl l) (by norm_num [Plugin.intMax]) (by norm_num)
    (by norm_num)

end OpenBR
